import Mathlib

set_option maxHeartbeats 1000000

/- Shallow embedding of the `properties` Go library (src/properties.go).

   Modeling conventions:
   * Go strings are lists of characters (`GoStr`); `strings.Split(s, ".")`
     becomes `splitOnDot`, `strings.HasPrefix` becomes `List.isPrefixOf`,
     and `strings.Replace(key, n.key+".", "", 1)` under the HasPrefix guard
     becomes dropping the first `n.key.length + 1` characters (`keyRem`).
   * The Go map `map[string]*propertiesNode` becomes an association list
     with in-place replacement (`lookupA` / `insertA`).
   * A `propertiesNode` becomes the inductive tree `PNode`.  The mutable
     `root` back-pointer is modeled explicitly: `findF` carries the root as
     a parameter, and `putF` returns a `PutRes.restart` signal that the
     driver `putTop` turns into a fresh descent from the (partially
     updated) root, matching the in-place semantics of `n.root.put`.
   * Recursion in `put`/`find` is not structurally decreasing in Go (and
     indeed diverges on some inputs), so both take a fuel parameter; `none`
     means the recursion budget ran out at every finite depth. -/

abbrev GoStr := List Char

def toGo (s : String) : GoStr := s.toList

/- Character class `[\w\.]` of `assignmentExpr` and `sectionExpr`
   (Go regexp `\w` is ASCII: letters, digits, underscore). -/
def isWordDot (c : Char) : Bool :=
  decide (('a' ≤ c ∧ c ≤ 'z') ∨ ('A' ≤ c ∧ c ≤ 'Z') ∨ ('0' ≤ c ∧ c ≤ '9') ∨ c = '_' ∨ c = '.')

/- Character class `\s` of Go regexp: [\t\n\f\r ]. -/
def isRegexSpace (c : Char) : Bool :=
  c == ' ' || c == '\t' || c == '\n' || c == '\x0c' || c == '\r'

/- Does the string consist of zero or more `\s` characters followed by `#`?
   Used to locate the leftmost start of a `\s*#.*$` match. -/
def startsWsHash : GoStr → Bool
  | [] => false
  | c :: rest => c == '#' || (isRegexSpace c && startsWsHash rest)

/- commentReplaceExpr.ReplaceAllString(text, "") with `\s*#.*$`: the
   leftmost match runs from the whitespace run immediately preceding the
   first `#` through the end of the line, and is deleted. -/
def stripComment : GoStr → GoStr
  | [] => []
  | c :: rest =>
    if c == '#' then []
    else if isRegexSpace c && startsWsHash rest then []
    else c :: stripComment rest

/- Specification-side helper: remove the maximal run of `\s` characters at
   the end of a string (used to characterize stripComment). -/
def rtrimWs : GoStr → GoStr
  | [] => []
  | c :: r =>
    match rtrimWs r with
    | [] => if isRegexSpace c then [] else [c]
    | r2 => c :: r2

/- Cutset of strings.Trim(line, " \t\n"). -/
def isTrimCut (c : Char) : Bool := c == ' ' || c == '\t' || c == '\n'

def trimGo (s : GoStr) : GoStr :=
  ((s.dropWhile isTrimCut).reverse.dropWhile isTrimCut).reverse

/- sectionExpr = `^\s*\[([\w\.]+)\]\s*$`; returns the captured group.
   The character classes `[\w.]`, `\s`, `[`, `]` are pairwise disjoint on
   the relevant boundaries, so greedy matching is deterministic. -/
def matchSection (s : GoStr) : Option GoStr :=
  match s.dropWhile isRegexSpace with
  | '[' :: r =>
    let name := r.takeWhile isWordDot
    if name = [] then none
    else
      match r.dropWhile isWordDot with
      | ']' :: r2 => if r2.dropWhile isRegexSpace = [] then some name else none
      | _ => none
  | _ => none

/- assignmentExpr = `^\s*([\w\.]+)\s*=\s*(.*)$`; returns (key, value).
   Again the classes are disjoint, so maximal-munch is the unique match. -/
def matchAssignment (s : GoStr) : Option (GoStr × GoStr) :=
  let s1 := s.dropWhile isRegexSpace
  let k := s1.takeWhile isWordDot
  if k = [] then none
  else
    match (s1.dropWhile isWordDot).dropWhile isRegexSpace with
    | '=' :: r => some (k, r.dropWhile isRegexSpace)
    | _ => none

/- strings.Split(s, "."): never returns an empty list. -/
def splitOnDot : GoStr → List GoStr
  | [] => [[]]
  | c :: rest =>
    match splitOnDot rest with
    | [] => [[c]]
    | g :: gs => if c = '.' then [] :: g :: gs else (c :: g) :: gs

/- tokens[0] of strings.Split(s, "."). -/
def splitHead (s : GoStr) : GoStr := (splitOnDot s).headD []

/- The remaining path: key unchanged at the root, otherwise the key with
   the `n.key + "."` prefix removed (strings.Replace(key, n.key+".", "", 1)
   where HasPrefix guarantees the occurrence is at position 0). -/
def keyRem (nk key : GoStr) : GoStr := if nk = [] then key else key.drop (nk.length + 1)

/- prefix := n.key; if prefix != "" then prefix += "."; prefix + firstToken. -/
def joinKey (k s : GoStr) : GoStr := if k = [] then s else k ++ '.' :: s

/- propertiesNode: key, value, tree (the root back-pointer is modeled by
   the explicit root threading in findF/putTop rather than stored). -/
inductive PNode : Type where
  | mk : GoStr → GoStr → List (GoStr × PNode) → PNode

def PNode.key : PNode → GoStr
  | .mk k _ _ => k

def PNode.value : PNode → GoStr
  | .mk _ v _ => v

def PNode.tree : PNode → List (GoStr × PNode)
  | .mk _ _ t => t

/- Go map read n.tree[s]. -/
def lookupA : List (GoStr × PNode) → GoStr → Option PNode
  | [], _ => none
  | (s, c) :: rest, k => if s = k then some c else lookupA rest k

/- Go map write n.tree[s] = v (replace or add). -/
def insertA : List (GoStr × PNode) → GoStr → PNode → List (GoStr × PNode)
  | [], k, v => [(k, v)]
  | (s, c) :: rest, k, v => if s = k then (k, v) :: rest else (s, c) :: insertA rest k v

/- newNode("", "", nil): the root created by Load. -/
def newRoot : PNode := .mk [] [] []

/- Result of propertiesNode.put on one node: either the updated node, or a
   signal that the Go code delegated to n.root.put (the node returned is
   the current node after any child insertions made before delegating). -/
inductive PutRes : Type where
  | ok : PNode → PutRes
  | restart : PNode → PutRes

def PutRes.node : PutRes → PNode
  | .ok n => n
  | .restart n => n

/- The child node put descends into: the existing one for the segment, or
   a freshly created newNode(prefix+firstToken, "", n.root) inserted first. -/
def putChild (n : PNode) (first : GoStr) : PNode :=
  match lookupA n.tree first with
  | some c => c
  | none => .mk (joinKey n.key first) [] []

/- Reassemble the node after the recursive put into the child: the child
   slot of the map holds the (possibly newly created and) updated child. -/
def putStep (n : PNode) (first : GoStr) (r : Option PutRes) : Option PutRes :=
  match r with
  | none => none
  | some (.ok c) => some (.ok (.mk n.key n.value (insertA n.tree first c)))
  | some (.restart c) => some (.restart (.mk n.key n.value (insertA n.tree first c)))

/- propertiesNode.put(key, value), fuel-bounded. -/
def putF : Nat → PNode → GoStr → GoStr → Option PutRes
  | 0, _, _, _ => none
  | fuel+1, n, key, value =>
    if n.key ≠ [] ∧ key = n.key then
      some (.ok (.mk n.key value n.tree))
    else if n.key ≠ [] ∧ ¬ (n.key ++ ['.']).isPrefixOf key = true then
      some (.restart n)
    else
      putStep n (splitHead (keyRem n.key key))
        (putF fuel (putChild n (splitHead (keyRem n.key key))) key value)

/- Driver for a put issued on the root: a restart re-runs put from the
   (partially updated) root, exactly as n.root.put does in Go. -/
def putTop : Nat → PNode → GoStr → GoStr → Option PNode
  | 0, _, _, _ => none
  | fuel+1, root, key, value =>
    match putF (fuel+1) root key value with
    | none => none
    | some (.ok r) => some r
    | some (.restart r) => putTop fuel r key value

/- propertiesNode.findNode(key), fuel-bounded; the first PNode argument is
   the tree root used by the `n.root.findNode(key)` fallback.
   `some none` is the NodeNotFound error, `some (some m)` is success. -/
def findF : Nat → PNode → PNode → GoStr → Option (Option PNode)
  | 0, _, _, _ => none
  | fuel+1, root, n, key =>
    if n.key ≠ [] ∧ key = n.key then some (some n)
    else if n.key ≠ [] ∧ ¬ (n.key ++ ['.']).isPrefixOf key = true then findF fuel root root key
    else
      match lookupA n.tree (splitHead (keyRem n.key key)) with
      | none => some none
      | some child => findF fuel root child key

/- A sequence of root-level puts. -/
def foldPuts (fuel : Nat) : PNode → List (GoStr × GoStr) → Option PNode
  | root, [] => some root
  | root, (k, v) :: rest =>
    match putTop fuel root k v with
    | none => none
    | some r => foldPuts fuel r rest

/- All node keys of a tree (root first, then subtrees in child order). -/
mutual
def keysOf : PNode → List GoStr
  | .mk k _ t => k :: keysOfList t
def keysOfList : List (GoStr × PNode) → List GoStr
  | [] => []
  | (_, c) :: rest => keysOf c ++ keysOfList rest
end

/- Follow a list of child segments from a node. -/
def reachAt : PNode → List GoStr → Option PNode
  | n, [] => some n
  | n, s :: rest =>
    match lookupA n.tree s with
    | none => none
    | some c => reachAt c rest

/- Error values of the library relevant to lookups. -/
inductive PropErr : Type where
  | nodeNotFound : PropErr
  | noValue : GoStr → PropErr

/- Properties.GetString. -/
def getStringF (fuel : Nat) (root : PNode) (key : GoStr) : Option (Except PropErr GoStr) :=
  match findF fuel root root key with
  | none => none
  | some none => some (.error .nodeNotFound)
  | some (some n) => if n.value = [] then some (.error (.noValue key)) else some (.ok n.value)

/- Properties.KeyExists: err != nodeNotFound, and findNode only ever
   returns nil or the nodeNotFound sentinel. -/
def keyExistsF (fuel : Nat) (root : PNode) (key : GoStr) : Option Bool :=
  match findF fuel root root key with
  | none => none
  | some none => some false
  | some (some _) => some true

/- Properties.Subkeys: the immediate child segment names of the node. -/
def subkeysF (fuel : Nat) (root : PNode) (key : GoStr) : Option (Except PropErr (List GoStr)) :=
  match findF fuel root root key with
  | none => none
  | some none => some (.error .nodeNotFound)
  | some (some n) => some (.ok (n.tree.map Prod.fst))

/- Parser state: the currentSection string (trailing dot included) and the
   tree under construction. -/
structure PState : Type where
  currentSection : GoStr
  root : PNode

/- One iteration of the scanner loop in Properties.parse; the processed
   line is trimGo (stripComment text) throughout. -/
def parseLineF (fuel : Nat) (st : PState) (text : GoStr) : Option (Except GoStr PState) :=
  if trimGo (stripComment text) = [] then some (.ok st)
  else
    match matchSection (trimGo (stripComment text)) with
    | some name => some (.ok ⟨name ++ ['.'], st.root⟩)
    | none =>
      match matchAssignment (trimGo (stripComment text)) with
      | some kv =>
        match putTop fuel st.root (st.currentSection ++ kv.1) kv.2 with
        | none => none
        | some r => some (.ok ⟨st.currentSection, r⟩)
      | none => some (.error (toGo "invalid line: " ++ text))

/- Properties.parse over a list of scanner lines. -/
def parseLinesF (fuel : Nat) (st : PState) : List GoStr → Option (Except GoStr PState)
  | [] => some (.ok st)
  | t :: rest =>
    match parseLineF fuel st t with
    | none => none
    | some (.error e) => some (.error e)
    | some (.ok st') => parseLinesF fuel st' rest

/- Load: fresh root, parse, and on error return no Properties object. -/
def loadLinesF (fuel : Nat) (lines : List GoStr) : Option (Except GoStr PNode) :=
  match parseLinesF fuel ⟨[], newRoot⟩ lines with
  | none => none
  | some (.error e) => some (.error e)
  | some (.ok st) => some (.ok st.root)

/- Structural invariant: every child's key is its parent's key joined with
   its segment (hence every node's key is the dot-join of its path). -/
inductive WF : PNode → Prop where
  | mk : ∀ n : PNode,
      (∀ s c, lookupA n.tree s = some c → c.key = joinKey n.key s) →
      (∀ s c, lookupA n.tree s = some c → WF c) → WF n

/- Key alignment of a lookup/insert target with the node being visited:
   exactly the configurations in which the code does not delegate to root. -/
def Aligned (n : PNode) (key : GoStr) : Prop :=
  n.key = [] ∨ key = n.key ∨ (n.key ++ ['.']).isPrefixOf key = true

/- Chain of empty-keyed nodes along empty segments: the configurations on
   which put loops forever for a key whose first segment is empty. -/
inductive EmptyChain : PNode → Prop where
  | mk : ∀ n : PNode, n.key = [] → (∀ c, lookupA n.tree [] = some c → EmptyChain c) → EmptyChain n

/- Extraction helpers used to name concrete computed objects in witnesses. -/
def getRoot (r : Option (Except GoStr PNode)) : PNode :=
  match r with
  | some (.ok x) => x
  | _ => newRoot

def getNode (r : Option (Option PNode)) : PNode :=
  match r with
  | some (some m) => m
  | _ => newRoot

def foundValue (r : Option (Option PNode)) : Option GoStr :=
  match r with
  | some (some m) => some m.value
  | _ => none

/- Concrete objects used by the witness instances below. -/

def rootA : PNode := getRoot (loadLinesF 10 [toGo "a = 1"])

def rootC3 : PNode := getRoot (loadLinesF 10 [toGo "v = x\\#y"])

def rootAB : PNode := getRoot (loadLinesF 10 [toGo "a.b = 1"])

def mAB : PNode := getNode (findF 10 rootAB rootAB (toGo "a"))

def rootEV : PNode := getRoot (loadLinesF 10 [toGo "a ="])

def mEV : PNode := getNode (findF 10 rootEV rootEV (toGo "a"))

def r0C4 : PNode := (putTop 10 newRoot (toGo "a.b") (toGo "1")).getD newRoot

def r1C4 : PNode := (foldPuts 10 r0C4 [(toGo "c", toGo "2")]).getD newRoot

def r1C7 : PNode := (putTop 10 newRoot (toGo "k") (toGo "1")).getD newRoot

def r2C7 : PNode := (putTop 10 r1C7 (toGo "k") (toGo "2")).getD newRoot

def r2C8 : PNode := (putTop 10 rootAB (toGo "a") (toGo "9")).getD newRoot

def rC9 : PNode := (foldPuts 10 newRoot [(toGo "a.b", toGo "1")]).getD newRoot

def m9 : PNode := (reachAt rC9 [toGo "a"]).getD newRoot

/- Projections on a literal node. -/

@[simp] theorem PNode.key_mk (k v : GoStr) (t : List (GoStr × PNode)) :
    (PNode.mk k v t).key = k := rfl

@[simp] theorem PNode.value_mk (k v : GoStr) (t : List (GoStr × PNode)) :
    (PNode.mk k v t).value = v := rfl

@[simp] theorem PNode.tree_mk (k v : GoStr) (t : List (GoStr × PNode)) :
    (PNode.mk k v t).tree = t := rfl

/- Facts about the association-list map operations. -/

theorem lookupA_insertA (t : List (GoStr × PNode)) (s : GoStr) (c : PNode) (q : GoStr) :
    lookupA (insertA t s c) q = if s = q then some c else lookupA t q := by
  induction t with
  | nil => simp [insertA, lookupA]
  | cons hd rest ih =>
    obtain ⟨a, b⟩ := hd
    by_cases h1 : a = s
    · subst h1
      by_cases h2 : a = q <;> simp [insertA, lookupA, h2]
    · rw [insertA, if_neg h1, lookupA]
      by_cases h2 : a = q
      · subst h2
        rw [if_pos rfl, if_neg (fun e => h1 e.symm), lookupA, if_pos rfl]
      · rw [if_neg h2, ih, lookupA, if_neg h2]

theorem lookupA_insertA_self (t : List (GoStr × PNode)) (s : GoStr) (c : PNode) :
    lookupA (insertA t s c) s = some c := by
  rw [lookupA_insertA, if_pos rfl]

theorem lookupA_insertA_ne (t : List (GoStr × PNode)) (s : GoStr) (c : PNode) (q : GoStr)
    (h : s ≠ q) : lookupA (insertA t s c) q = lookupA t q := by
  rw [lookupA_insertA, if_neg h]

/- Facts about splitOnDot and the first token. -/

theorem splitOnDot_ne_nil (s : GoStr) : splitOnDot s ≠ [] := by
  cases s with
  | nil => simp [splitOnDot]
  | cons c rest =>
    rw [splitOnDot]
    cases h : splitOnDot rest with
    | nil => simp
    | cons g gs => by_cases hc : c = '.' <;> simp [hc]

theorem splitOnDot_cons_dot (rest : GoStr) : splitOnDot ('.' :: rest) = [] :: splitOnDot rest := by
  rw [splitOnDot]
  cases h : splitOnDot rest with
  | nil => exact absurd h (splitOnDot_ne_nil rest)
  | cons g gs => simp

theorem splitOnDot_cons_ne (c : Char) (rest : GoStr) (hc : c ≠ '.') :
    splitOnDot (c :: rest) = (c :: splitHead rest) :: (splitOnDot rest).tail := by
  rw [splitOnDot]
  cases h : splitOnDot rest with
  | nil => exact absurd h (splitOnDot_ne_nil rest)
  | cons g gs => simp [hc, splitHead, h]

theorem split_head_cases (s : GoStr) :
    s = splitHead s ∨ ∃ r, s = splitHead s ++ '.' :: r := by
  induction s with
  | nil => left; rfl
  | cons c rest ih =>
    by_cases hc : c = '.'
    · subst hc
      right
      refine ⟨rest, ?_⟩
      rw [splitHead, splitOnDot_cons_dot]
      rfl
    · rw [splitHead, splitOnDot_cons_ne c rest hc, List.headD_cons]
      rcases ih with h1 | ⟨r, h2⟩
      · left
        rw [← h1]
      · right
        refine ⟨r, ?_⟩
        conv_lhs => rw [h2]
        rfl

/- Facts about isPrefixOf on character lists. -/

theorem app_cons (x r : GoStr) (c : Char) : x ++ c :: r = (x ++ [c]) ++ r := by simp

theorem pre_of_app (x r : GoStr) : x.isPrefixOf (x ++ r) = true :=
  List.isPrefixOf_iff_prefix.mpr (List.prefix_append x r)

theorem pre_len {p q : GoStr} (h : p.isPrefixOf q = true) : p.length ≤ q.length :=
  (List.isPrefixOf_iff_prefix.mp h).length_le

theorem pre_drop {nk key : GoStr} (h : (nk ++ ['.']).isPrefixOf key = true) :
    key = (nk ++ ['.']) ++ key.drop (nk.length + 1) := by
  obtain ⟨t, ht⟩ := List.isPrefixOf_iff_prefix.mp h
  have hl : nk.length + 1 = (nk ++ ['.']).length := by simp
  rw [← ht, hl, List.drop_left]

theorem pre_ne {key key2 : GoStr} (h : (key ++ ['.']).isPrefixOf key2 = true) :
    key2 ≠ key := by
  intro e
  subst e
  have := pre_len h
  simp at this

/- Descending one level preserves key alignment: the child the code picks
   is either the exact target or a strict dotted ancestor of it. -/

theorem aligned_child {nk key : GoStr}
    (hd : nk = [] ∨ (nk ≠ [] ∧ key ≠ nk ∧ (nk ++ ['.']).isPrefixOf key = true)) :
    key = joinKey nk (splitHead (keyRem nk key)) ∨
    ((joinKey nk (splitHead (keyRem nk key))) ++ ['.']).isPrefixOf key = true := by
  rcases hd with h | ⟨hne, _, hp⟩
  · subst h
    rw [keyRem, if_pos rfl, joinKey, if_pos rfl]
    rcases split_head_cases key with h1 | ⟨r, h2⟩
    · exact Or.inl h1
    · right
      refine List.isPrefixOf_iff_prefix.mpr ⟨r, ?_⟩
      rw [← app_cons]
      exact h2.symm
  · rw [keyRem, if_neg hne, joinKey, if_neg hne]
    have hk := pre_drop hp
    rcases split_head_cases (key.drop (nk.length + 1)) with h1 | ⟨r, h2⟩
    · left
      rw [← h1]
      conv_lhs => rw [hk]
      simp
    · right
      refine List.isPrefixOf_iff_prefix.mpr ⟨r, ?_⟩
      conv_rhs => rw [hk, h2]
      simp

/- Package the branch conditions of putF/findF into the alignment fact for
   the child node. -/
theorem aligned_step {n : PNode} {key : GoStr}
    (c1 : ¬(n.key ≠ [] ∧ key = n.key))
    (c2 : ¬(n.key ≠ [] ∧ ¬ (n.key ++ ['.']).isPrefixOf key = true))
    {ck : GoStr} (hck : ck = joinKey n.key (splitHead (keyRem n.key key))) :
    ck = [] ∨ key = ck ∨ (ck ++ ['.']).isPrefixOf key = true := by
  subst hck
  have hd : n.key = [] ∨
      (n.key ≠ [] ∧ key ≠ n.key ∧ (n.key ++ ['.']).isPrefixOf key = true) := by
    by_cases h : n.key = []
    · exact Or.inl h
    · refine Or.inr ⟨h, fun e => c1 ⟨h, e⟩, ?_⟩
      by_contra hnp
      exact c2 ⟨h, hnp⟩
  rcases aligned_child hd with h | h
  · exact Or.inr (Or.inl h)
  · exact Or.inr (Or.inr h)

/- WF inversion. -/
theorem WF_child {n : PNode} (h : WF n) {s : GoStr} {c : PNode}
    (hc : lookupA n.tree s = some c) : c.key = joinKey n.key s ∧ WF c := by
  cases h with
  | mk n h1 h2 => exact ⟨h1 s c hc, h2 s c hc⟩

theorem WF_mk_node (k v : GoStr) (t : List (GoStr × PNode))
    (h1 : ∀ s c, lookupA t s = some c → c.key = joinKey k s)
    (h2 : ∀ s c, lookupA t s = some c → WF c) : WF (.mk k v t) :=
  WF.mk (.mk k v t) (fun s c hc => h1 s c hc) (fun s c hc => h2 s c hc)

theorem WF_newRoot : WF newRoot := by
  refine WF_mk_node [] [] [] ?_ ?_ <;> intro s c hc <;> simp [lookupA] at hc

/- findNode does not look at the value field of a node it passes through or
   rejects: only an exact key match returns the node itself. -/
theorem find_value_irrel : ∀ fuel R (k v1 v2 : GoStr) t key2, key2 ≠ k →
    findF fuel R (.mk k v1 t) key2 = findF fuel R (.mk k v2 t) key2 := by
  intro fuel R k v1 v2 t key2 hne
  cases fuel with
  | zero => rfl
  | succ f =>
    rw [findF, findF]
    simp only [PNode.key, PNode.tree]
    by_cases c2 : k ≠ [] ∧ ¬ (k ++ ['.']).isPrefixOf key2 = true
    · rw [if_neg (fun h : k ≠ [] ∧ key2 = k => hne h.2), if_pos c2,
          if_neg (fun h : k ≠ [] ∧ key2 = k => hne h.2)]
    · rw [if_neg (fun h : k ≠ [] ∧ key2 = k => hne h.2), if_neg c2,
          if_neg (fun h : k ≠ [] ∧ key2 = k => hne h.2)]

/- put never terminates once it reaches an empty-keyed node with a key
   whose first token is empty: it keeps creating empty-keyed children. -/
theorem put_empty_first (k v : GoStr) (hk : splitHead k = []) :
    ∀ fuel n, EmptyChain n → putF fuel n k v = none := by
  intro fuel
  induction fuel with
  | zero => intro n _; rfl
  | succ f ih =>
    intro n hn
    obtain ⟨n, hkey, hch⟩ := hn
    rw [putF, if_neg (fun h => h.1 hkey), if_neg (fun h => h.1 hkey)]
    have hrem : keyRem n.key k = k := by rw [hkey, keyRem, if_pos rfl]
    rw [hrem, hk]
    have : putF f (putChild n []) k v = none := by
      rw [putChild]
      cases hc : lookupA n.tree [] with
      | some c => exact ih c (hch c hc)
      | none =>
        refine ih _ ?_
        refine EmptyChain.mk _ ?_ ?_
        · rw [hkey, joinKey, if_pos rfl, PNode.key]
        · intro c hcc
          simp [PNode.tree, lookupA] at hcc
    rw [this, putStep]

theorem putTop_of_none {n : PNode} {k v : GoStr}
    (h : ∀ g, putF g n k v = none) : ∀ fuel, putTop fuel n k v = none := by
  intro fuel
  cases fuel with
  | zero => rfl
  | succ f =>
    rw [putTop, h (f + 1)]

/- Inversion of one step of putF. -/
theorem putF_succ_cases {f : Nat} {n : PNode} {key value : GoStr} {res : PutRes}
    (h : putF (f+1) n key value = some res) :
    ((n.key ≠ [] ∧ key = n.key) ∧ res = .ok (.mk n.key value n.tree)) ∨
    (¬(n.key ≠ [] ∧ key = n.key) ∧ (n.key ≠ [] ∧ ¬ (n.key ++ ['.']).isPrefixOf key = true) ∧
      res = .restart n) ∨
    (¬(n.key ≠ [] ∧ key = n.key) ∧
     ¬(n.key ≠ [] ∧ ¬ (n.key ++ ['.']).isPrefixOf key = true) ∧
     ((∃ c, putF f (putChild n (splitHead (keyRem n.key key))) key value = some (.ok c) ∧
         res = .ok (.mk n.key n.value (insertA n.tree (splitHead (keyRem n.key key)) c))) ∨
      (∃ c, putF f (putChild n (splitHead (keyRem n.key key))) key value = some (.restart c) ∧
         res = .restart (.mk n.key n.value (insertA n.tree (splitHead (keyRem n.key key)) c))))) := by
  rw [putF] at h
  by_cases c1 : n.key ≠ [] ∧ key = n.key
  · rw [if_pos c1] at h
    exact Or.inl ⟨c1, (Option.some.inj h).symm⟩
  · rw [if_neg c1] at h
    by_cases c2 : n.key ≠ [] ∧ ¬ (n.key ++ ['.']).isPrefixOf key = true
    · rw [if_pos c2] at h
      exact Or.inr (Or.inl ⟨c1, c2, (Option.some.inj h).symm⟩)
    · rw [if_neg c2] at h
      refine Or.inr (Or.inr ⟨c1, c2, ?_⟩)
      cases hrec : putF f (putChild n (splitHead (keyRem n.key key))) key value with
      | none => rw [hrec] at h; simp [putStep] at h
      | some r =>
        rw [hrec] at h
        cases r with
        | ok c =>
          left
          refine ⟨c, rfl, ?_⟩
          simp only [putStep] at h
          exact (Option.some.inj h).symm
        | restart c =>
          right
          refine ⟨c, rfl, ?_⟩
          simp only [putStep] at h
          exact (Option.some.inj h).symm

/- The child put descends into has the joined key and is well-formed. -/
theorem putChild_spec {n : PNode} (hwf : WF n) (first : GoStr) :
    (putChild n first).key = joinKey n.key first ∧ WF (putChild n first) := by
  rw [putChild]
  cases hc : lookupA n.tree first with
  | some c0 => exact ⟨(WF_child hwf hc).1, (WF_child hwf hc).2⟩
  | none =>
    constructor
    · rfl
    · refine WF_mk_node _ _ _ ?_ ?_ <;> intro s c0 hc0 <;> simp [lookupA] at hc0

/- put preserves well-formedness and never changes the key of the node it
   was invoked on. -/
theorem putF_wf : ∀ fuel n key value res, putF fuel n key value = some res →
    WF n → WF res.node ∧ res.node.key = n.key := by
  intro fuel
  induction fuel with
  | zero => intro n key value res h; cases h
  | succ f ih =>
    intro n key value res h hwf
    rcases putF_succ_cases h with ⟨c1, rfl⟩ | ⟨c1, c2, rfl⟩ | ⟨c1, c2, hsub⟩
    · refine ⟨?_, rfl⟩
      simp only [PutRes.node]
      exact WF_mk_node _ _ _ (fun s c hc => (WF_child hwf hc).1)
        (fun s c hc => (WF_child hwf hc).2)
    · exact ⟨hwf, rfl⟩
    · have hchild := putChild_spec hwf (splitHead (keyRem n.key key))
      rcases hsub with ⟨c, hrec, rfl⟩ | ⟨c, hrec, rfl⟩ <;>
      · obtain ⟨hwfc, hkc⟩ := ih _ key value _ hrec hchild.2
        simp only [PutRes.node] at hwfc hkc ⊢
        refine ⟨?_, rfl⟩
        refine WF_mk_node _ _ _ ?_ ?_ <;> intro s c0 hc0 <;>
          rw [lookupA_insertA] at hc0 <;>
          by_cases hs : splitHead (keyRem n.key key) = s
        · rw [if_pos hs] at hc0
          cases hc0
          rw [hkc, hchild.1, hs]
        · rw [if_neg hs] at hc0
          exact (WF_child hwf hc0).1
        · rw [if_pos hs] at hc0
          cases hc0
          exact hwfc
        · rw [if_neg hs] at hc0
          exact (WF_child hwf hc0).2

/- On a well-formed tree and an aligned key, put never delegates to root. -/
theorem putF_ok_of_aligned : ∀ fuel n key value res,
    putF fuel n key value = some res → WF n → Aligned n key →
    ∃ r, res = .ok r := by
  intro fuel
  induction fuel with
  | zero => intro n key value res h; cases h
  | succ f ih =>
    intro n key value res h hwf hal
    rcases putF_succ_cases h with ⟨c1, rfl⟩ | ⟨c1, c2, rfl⟩ | ⟨c1, c2, hsub⟩
    · exact ⟨_, rfl⟩
    · exfalso
      obtain ⟨hne, hnp⟩ := c2
      rcases hal with h0 | h0 | h0
      · exact hne h0
      · exact c1 ⟨hne, h0⟩
      · exact hnp h0
    · have hchild := putChild_spec hwf (splitHead (keyRem n.key key))
      have halc : Aligned (putChild n (splitHead (keyRem n.key key))) key := by
        rw [Aligned]
        exact aligned_step c1 c2 hchild.1
      rcases hsub with ⟨c, hrec, rfl⟩ | ⟨c, hrec, rfl⟩
      · exact ⟨_, rfl⟩
      · obtain ⟨y, hy⟩ := ih _ key value _ hrec hchild.2 halc
        cases hy

/- On a well-formed root, putTop succeeds exactly when the single putF
   descent returns ok with the same resulting tree. -/
theorem putTop_eq {fuel : Nat} {root : PNode} {key value : GoStr} {r : PNode}
    (hwf : WF root) (hal : Aligned root key)
    (h : putTop fuel root key value = some r) :
    putF fuel root key value = some (.ok r) := by
  cases fuel with
  | zero => cases h
  | succ f =>
    rw [putTop] at h
    cases hp : putF (f+1) root key value with
    | none => rw [hp] at h; cases h
    | some res =>
      rw [hp] at h
      cases res with
      | ok x =>
        simp at h
        subst h
        rfl
      | restart x =>
        exfalso
        obtain ⟨y, hy⟩ := putF_ok_of_aligned _ _ _ _ _ hp hwf hal
        cases hy

theorem putF_putTop {fuel : Nat} {n : PNode} {key value : GoStr} {r : PNode}
    (h : putF fuel n key value = some (.ok r)) : putTop fuel n key value = some r := by
  cases fuel with
  | zero => cases h
  | succ f => rw [putTop, h]

/- One step of findF on a node when neither the exact-match branch nor the
   delegate-to-root branch applies. -/
theorem findF_mk_succ (f : Nat) (R : PNode) (k v : GoStr) (t : List (GoStr × PNode)) (key : GoStr)
    (c1 : ¬(k ≠ [] ∧ key = k)) (c2 : ¬(k ≠ [] ∧ ¬ (k ++ ['.']).isPrefixOf key = true)) :
    findF (f+1) R (.mk k v t) key =
      match lookupA t (splitHead (keyRem k key)) with
      | none => some none
      | some child => findF f R child key := by
  rw [findF]
  simp only [PNode.key, PNode.tree]
  rw [if_neg c1, if_neg c2]

/- On a well-formed tree and an aligned key, find never consults the root
   argument, so the result does not depend on it. -/
theorem findF_root_irrel : ∀ fuel n key R1 R2, WF n → Aligned n key →
    findF fuel R1 n key = findF fuel R2 n key := by
  intro fuel
  induction fuel with
  | zero => intros; rfl
  | succ f ih =>
    intro n key R1 R2 hwf hal
    rw [findF, findF]
    by_cases c1 : n.key ≠ [] ∧ key = n.key
    · rw [if_pos c1, if_pos c1]
    · rw [if_neg c1, if_neg c1]
      by_cases c2 : n.key ≠ [] ∧ ¬ (n.key ++ ['.']).isPrefixOf key = true
      · exfalso
        obtain ⟨hne, hnp⟩ := c2
        rcases hal with h0 | h0 | h0
        · exact hne h0
        · exact c1 ⟨hne, h0⟩
        · exact hnp h0
      · rw [if_neg c2, if_neg c2]
        cases hc : lookupA n.tree (splitHead (keyRem n.key key)) with
        | none => rfl
        | some c =>
          have h1 := WF_child hwf hc
          have halc : Aligned c key := by rw [Aligned]; exact aligned_step c1 c2 h1.1
          exact ih c key R1 R2 h1.2 halc

/- After a successful put of (key, value), find(key) succeeds and returns a
   node holding exactly that value. -/
theorem put_then_find : ∀ fuel n key value n' R,
    putF fuel n key value = some (.ok n') →
    ∃ m, findF fuel R n' key = some (some m) ∧ m.value = value := by
  intro fuel
  induction fuel with
  | zero => intro n key value n' R h; cases h
  | succ f ih =>
    intro n key value n' R h
    rcases putF_succ_cases h with ⟨c1, he⟩ | ⟨c1, c2, he⟩ | ⟨c1, c2, hsub⟩
    · injection he with he'
      subst he'
      have hcond : (PNode.mk n.key value n.tree).key ≠ [] ∧
          key = (PNode.mk n.key value n.tree).key := by
        simp only [PNode.key]
        exact c1
      exact ⟨.mk n.key value n.tree, by rw [findF, if_pos hcond], rfl⟩
    · cases he
    · rcases hsub with ⟨c, hrec, he⟩ | ⟨c, hrec, he⟩
      · injection he with he'
        subst he'
        obtain ⟨m, hfind, hval⟩ := ih _ key value _ R hrec
        refine ⟨m, ?_, hval⟩
        rw [findF_mk_succ f R n.key n.value _ key c1 c2, lookupA_insertA_self]
        exact hfind
      · cases he

/- List of all node keys is preserved when a child is replaced by one with
   the same key list. -/
theorem keysOfList_insertA : ∀ t s c c', lookupA t s = some c → keysOf c' = keysOf c →
    keysOfList (insertA t s c') = keysOfList t := by
  intro t
  induction t with
  | nil => intro s c c' h _; cases h
  | cons hd rest ih =>
    intro s c c' h hk
    obtain ⟨a, b⟩ := hd
    rw [lookupA] at h
    by_cases ha : a = s
    · rw [if_pos ha] at h
      injection h with h'
      subst h'
      rw [insertA, if_pos ha, keysOfList, keysOfList, hk]
    · rw [if_neg ha] at h
      rw [insertA, if_neg ha, keysOfList, keysOfList, ih s c c' h hk]

/- Putting at an existing key overwrites that node's value in place: the
   put succeeds, the set of node keys is unchanged, find returns the same
   node with the new value and the old children, and lookups of strict
   dotted descendants are completely unaffected. -/
theorem find_then_put : ∀ fuel n key m value R,
    WF n → Aligned n key →
    findF fuel R n key = some (some m) →
    ∃ n', putF fuel n key value = some (.ok n') ∧
      keysOf n' = keysOf n ∧
      findF fuel R n' key = some (some (.mk key value m.tree)) ∧
      (∀ f2 R2 key2, (key ++ ['.']).isPrefixOf key2 = true →
        findF f2 R2 n' key2 = findF f2 R2 n key2) := by
  intro fuel
  induction fuel with
  | zero => intro n key m value R hwf hal h; cases h
  | succ f ih =>
    intro n key m value R hwf hal h
    rw [findF] at h
    by_cases c1 : n.key ≠ [] ∧ key = n.key
    · rw [if_pos c1] at h
      injection h with h'
      injection h' with h''
      subst h''
      refine ⟨.mk n.key value n.tree, ?_, ?_, ?_, ?_⟩
      · rw [putF, if_pos c1]
      · cases n with
        | mk k0 v0 t0 => rfl
      · have hcond : (PNode.mk n.key value n.tree).key ≠ [] ∧
            key = (PNode.mk n.key value n.tree).key := by
          simp only [PNode.key]
          exact c1
        rw [findF, if_pos hcond, c1.2]
      · intro f2 R2 key2 hpre
        have hne2 : key2 ≠ key := pre_ne hpre
        cases n with
        | mk k0 v0 t0 =>
          simp only [PNode.key] at c1
          exact find_value_irrel f2 R2 k0 value v0 t0 key2 (c1.2 ▸ hne2)
    · rw [if_neg c1] at h
      by_cases c2 : n.key ≠ [] ∧ ¬ (n.key ++ ['.']).isPrefixOf key = true
      · exfalso
        obtain ⟨hne, hnp⟩ := c2
        rcases hal with h0 | h0 | h0
        · exact hne h0
        · exact c1 ⟨hne, h0⟩
        · exact hnp h0
      · rw [if_neg c2] at h
        cases hc : lookupA n.tree (splitHead (keyRem n.key key)) with
        | none => rw [hc] at h; cases h
        | some c =>
          rw [hc] at h
          have hcc := WF_child hwf hc
          have halc : Aligned c key := by rw [Aligned]; exact aligned_step c1 c2 hcc.1
          obtain ⟨c', hput, hkeys, hfind, hframe⟩ := ih c key m value R hcc.2 halc h
          refine ⟨.mk n.key n.value (insertA n.tree (splitHead (keyRem n.key key)) c'),
            ?_, ?_, ?_, ?_⟩
          · rw [putF, if_neg c1, if_neg c2]
            simp only [putChild, hc]
            rw [hput]
            simp only [putStep]
          · cases n with
            | mk k0 v0 t0 =>
              simp only [PNode.key, PNode.tree] at hc ⊢
              rw [keysOf, keysOf, keysOfList_insertA t0 _ c c' hc hkeys]
          · rw [findF_mk_succ f R n.key n.value _ key c1 c2, lookupA_insertA_self]
            exact hfind
          · intro f2 R2 key2 hpre
            cases f2 with
            | zero => rfl
            | succ g =>
              rw [findF, findF]
              simp only [PNode.key_mk, PNode.value_mk, PNode.tree_mk]
              have hk2ne : ¬(n.key ≠ [] ∧ key2 = n.key) := by
                rintro ⟨hne0, he2⟩
                have hpre1 : (n.key ++ ['.']).isPrefixOf key = true := by
                  rcases hal with h0 | h0 | h0
                  · exact absurd h0 hne0
                  · exact absurd ⟨hne0, h0⟩ c1
                  · exact h0
                have l1 := pre_len hpre1
                have l2 := pre_len hpre
                simp at l1 l2
                rw [he2] at l2
                omega
              rw [if_neg hk2ne, if_neg hk2ne]
              by_cases c2' : n.key ≠ [] ∧ ¬ (n.key ++ ['.']).isPrefixOf key2 = true
              · rw [if_pos c2', if_pos c2']
              · rw [if_neg c2', if_neg c2']
                by_cases hs : splitHead (keyRem n.key key2) = splitHead (keyRem n.key key)
                · rw [hs, lookupA_insertA_self, hc]
                  exact hframe g R2 key2 hpre
                · rw [lookupA_insertA_ne _ _ _ _ (fun e => hs e.symm)]

/- A successful put at key2 does not change the value found at any other
   key that was already present. -/
theorem put_value_frame (key key2 value2 : GoStr) (R : PNode) (hkne : key ≠ key2) :
    ∀ f2 g n n2 m,
    putF g n key2 value2 = some (.ok n2) →
    findF f2 R n key = some (some m) →
    ∃ m2, findF f2 R n2 key = some (some m2) ∧ m2.value = m.value := by
  intro f2
  induction f2 with
  | zero => intro g n n2 m _ hfind; cases hfind
  | succ f2' ih =>
    intro g n n2 m hput hfind
    cases g with
    | zero => cases hput
    | succ g' =>
      rcases putF_succ_cases hput with ⟨c1, he⟩ | ⟨c1, c2, he⟩ | ⟨c1, c2, hsub⟩
      · injection he with he'
        subst he'
        cases n with
        | mk k0 v0 t0 =>
          simp only [PNode.key_mk] at c1
          simp only [PNode.key_mk, PNode.tree_mk]
          rw [find_value_irrel (f2' + 1) R k0 value2 v0 t0 key (c1.2 ▸ hkne)]
          exact ⟨m, hfind, rfl⟩
      · cases he
      · rcases hsub with ⟨c', hrec, he⟩ | ⟨c', hrec, he⟩
        swap
        · cases he
        · injection he with he'
          subst he'
          rw [findF] at hfind
          by_cases d1 : n.key ≠ [] ∧ key = n.key
          · rw [if_pos d1] at hfind
            injection hfind with h1
            injection h1 with h2
            subst h2
            refine ⟨.mk n.key n.value (insertA n.tree (splitHead (keyRem n.key key2)) c'),
              ?_, by simp⟩
            rw [findF]
            have hcond :
                (PNode.mk n.key n.value
                  (insertA n.tree (splitHead (keyRem n.key key2)) c')).key ≠ [] ∧
                key = (PNode.mk n.key n.value
                  (insertA n.tree (splitHead (keyRem n.key key2)) c')).key := by
              simp only [PNode.key_mk]
              exact d1
            rw [if_pos hcond]
          · rw [if_neg d1] at hfind
            by_cases d2 : n.key ≠ [] ∧ ¬ (n.key ++ ['.']).isPrefixOf key = true
            · rw [if_pos d2] at hfind
              refine ⟨m, ?_, rfl⟩
              rw [findF]
              simp only [PNode.key_mk]
              rw [if_neg d1, if_pos d2]
              exact hfind
            · rw [if_neg d2] at hfind
              cases hcl : lookupA n.tree (splitHead (keyRem n.key key)) with
              | none => rw [hcl] at hfind; cases hfind
              | some c =>
                rw [hcl] at hfind
                rw [findF_mk_succ f2' R n.key n.value _ key d1 d2]
                by_cases hs : splitHead (keyRem n.key key2) = splitHead (keyRem n.key key)
                · rw [hs, lookupA_insertA_self]
                  have hpc : putChild n (splitHead (keyRem n.key key2)) = c := by
                    simp only [putChild, hs, hcl]
                  rw [hpc] at hrec
                  exact ih g' c c' m hrec hfind
                · rw [lookupA_insertA_ne _ _ _ _ hs, hcl]
                  exact ⟨m, hfind, rfl⟩

theorem aligned_root {root : PNode} (hk : root.key = []) (key : GoStr) :
    Aligned root key := Or.inl hk

/- parse processes the concatenation of two line lists sequentially. -/
theorem parseLinesF_append : ∀ (a : List GoStr) f st (b : List GoStr),
    parseLinesF f st (a ++ b) =
      match parseLinesF f st a with
      | none => none
      | some (.error e) => some (.error e)
      | some (.ok st2) => parseLinesF f st2 b := by
  intro a
  induction a with
  | nil => intro f st b; rfl
  | cons t rest ih =>
    intro f st b
    cases hp : parseLineF f st t with
    | none => rw [List.cons_append, parseLinesF, hp, parseLinesF, hp]
    | some e =>
      cases e with
      | error msg => rw [List.cons_append, parseLinesF, hp, parseLinesF, hp]
      | ok st2 =>
        rw [List.cons_append, parseLinesF, hp, parseLinesF, hp]
        exact ih f st2 b

theorem emptyChain_of_root {root : PNode} (hk : root.key = [])
    (hnc : lookupA root.tree [] = none) : EmptyChain root :=
  EmptyChain.mk root hk (fun c hc => by rw [hnc] at hc; cases hc)

/- A successful root-level put keeps the root well-formed, empty-keyed and
   without an empty-segment child. -/
theorem putTop_root_inv : ∀ fuel root k v r,
    WF root → root.key = [] → lookupA root.tree [] = none →
    putTop fuel root k v = some r →
    WF r ∧ r.key = [] ∧ lookupA r.tree [] = none := by
  intro fuel root k v r hwf hk hnc htop
  have hput := putTop_eq hwf (aligned_root hk k) htop
  have hw := putF_wf _ _ _ _ _ hput hwf
  refine ⟨by simpa [PutRes.node] using hw.1, by rw [← hk]; simpa [PutRes.node] using hw.2, ?_⟩
  cases fuel with
  | zero => cases hput
  | succ f =>
    rcases putF_succ_cases hput with ⟨c1, he⟩ | ⟨c1, c2, he⟩ | ⟨c1, c2, hsub⟩
    · exact absurd hk c1.1
    · cases he
    · have hrem : keyRem root.key k = k := by rw [hk, keyRem, if_pos rfl]
      by_cases hf : splitHead (keyRem root.key k) = []
      · exfalso
        rw [hrem] at hf
        have hchain : EmptyChain (putChild root (splitHead (keyRem root.key k))) := by
          rw [hrem, hf]
          simp only [putChild, hnc]
          refine EmptyChain.mk _ ?_ ?_
          · simp [joinKey, hk]
          · intro c hc
            simp [lookupA] at hc
        have hnone := put_empty_first k v hf f _ hchain
        rcases hsub with ⟨c, hrec, _⟩ | ⟨c, hrec, _⟩ <;> rw [hnone] at hrec <;> cases hrec
      · rcases hsub with ⟨c, hrec, he⟩ | ⟨c, hrec, he⟩
        · injection he with he'
          subst he'
          simp only [PNode.tree_mk]
          rw [lookupA_insertA_ne _ _ _ _ hf]
          exact hnc
        · cases he

/- The parser loop preserves the root invariants line by line. -/
theorem parse_inv_line : ∀ f st text st',
    WF st.root → st.root.key = [] → lookupA st.root.tree [] = none →
    parseLineF f st text = some (.ok st') →
    WF st'.root ∧ st'.root.key = [] ∧ lookupA st'.root.tree [] = none := by
  intro f st text st' hwf hk hnc h
  rw [parseLineF] at h
  split at h
  · injection h with h1
    injection h1 with h2
    subst h2
    exact ⟨hwf, hk, hnc⟩
  · cases hs : matchSection (trimGo (stripComment text)) with
    | some name =>
      simp only [hs] at h
      injection h with h1
      injection h1 with h2
      subst h2
      exact ⟨hwf, hk, hnc⟩
    | none =>
      simp only [hs] at h
      cases ha : matchAssignment (trimGo (stripComment text)) with
      | some kv =>
        simp only [ha] at h
        cases hput : putTop f st.root (st.currentSection ++ kv.1) kv.2 with
        | none => simp only [hput] at h; cases h
        | some r =>
          simp only [hput] at h
          injection h with h1
          injection h1 with h2
          subst h2
          exact putTop_root_inv f st.root _ kv.2 r hwf hk hnc hput
      | none =>
        simp only [ha] at h
        injection h with h1
        cases h1

theorem parse_inv : ∀ (lines : List GoStr) f st st',
    WF st.root → st.root.key = [] → lookupA st.root.tree [] = none →
    parseLinesF f st lines = some (.ok st') →
    WF st'.root ∧ st'.root.key = [] ∧ lookupA st'.root.tree [] = none := by
  intro lines
  induction lines with
  | nil =>
    intro f st st' hwf hk hnc h
    rw [parseLinesF] at h
    injection h with h1
    injection h1 with h2
    subst h2
    exact ⟨hwf, hk, hnc⟩
  | cons t rest ih =>
    intro f st st' hwf hk hnc h
    rw [parseLinesF] at h
    cases hp : parseLineF f st t with
    | none => rw [hp] at h; cases h
    | some e =>
      rw [hp] at h
      cases e with
      | error msg =>
        injection h with h1
        cases h1
      | ok st2 =>
        obtain ⟨h1, h2, h3⟩ := parse_inv_line f st t st2 hwf hk hnc hp
        exact ih f st2 st' h1 h2 h3 h

/- Every tree produced by Load is well-formed, has the empty root key and
   no empty-segment child at the root. -/
theorem load_wf : ∀ f lines r, loadLinesF f lines = some (.ok r) →
    WF r ∧ r.key = [] ∧ lookupA r.tree [] = none := by
  intro f lines r h
  rw [loadLinesF] at h
  cases hp : parseLinesF f ⟨[], newRoot⟩ lines with
  | none => rw [hp] at h; cases h
  | some e =>
    rw [hp] at h
    cases e with
    | error msg =>
      injection h with h1
      cases h1
    | ok st =>
      injection h with h1
      injection h1 with h2
      subst h2
      exact parse_inv lines f ⟨[], newRoot⟩ st WF_newRoot rfl rfl hp

/- Folded sequences of root-level puts preserve the invariants. -/
theorem foldPuts_inv : ∀ (ops : List (GoStr × GoStr)) fuel root r,
    WF root → root.key = [] →
    foldPuts fuel root ops = some r → WF r ∧ r.key = [] := by
  intro ops
  induction ops with
  | nil =>
    intro fuel root r hwf hk h
    rw [foldPuts] at h
    injection h with h1
    subst h1
    exact ⟨hwf, hk⟩
  | cons p rest ih =>
    intro fuel root r hwf hk h
    obtain ⟨k, v⟩ := p
    rw [foldPuts] at h
    cases hp : putTop fuel root k v with
    | none => rw [hp] at h; cases h
    | some r1 =>
      rw [hp] at h
      have hput := putTop_eq hwf (aligned_root hk k) hp
      have hw := putF_wf _ _ _ _ _ hput hwf
      exact ih fuel r1 r (by simpa [PutRes.node] using hw.1)
        (by rw [← hk]; simpa [PutRes.node] using hw.2) h

/- Later puts at other keys preserve the value found at a key. -/
theorem foldPuts_value : ∀ (ops : List (GoStr × GoStr)) g cur r1 k v f,
    WF cur → cur.key = [] →
    (∀ p ∈ ops, p.1 ≠ k) →
    (∃ m, findF f cur cur k = some (some m) ∧ m.value = v) →
    foldPuts g cur ops = some r1 →
    ∃ m, findF f r1 r1 k = some (some m) ∧ m.value = v := by
  intro ops
  induction ops with
  | nil =>
    intro g cur r1 k v f _ _ _ hex h
    rw [foldPuts] at h
    injection h with h1
    subst h1
    exact hex
  | cons p rest ih =>
    intro g cur r1 k v f hwf hk hne hex h
    obtain ⟨k2, v2⟩ := p
    rw [foldPuts] at h
    cases hp : putTop g cur k2 v2 with
    | none => rw [hp] at h; cases h
    | some r2 =>
      rw [hp] at h
      have hput := putTop_eq hwf (aligned_root hk k2) hp
      obtain ⟨m, hfind, hval⟩ := hex
      have hkne : k ≠ k2 := by
        have h0 := hne (k2, v2) (List.mem_cons_self _ _)
        exact fun e => h0 e.symm
      obtain ⟨m2, hfind2, hval2⟩ :=
        put_value_frame k k2 v2 cur hkne f g cur r2 m hput hfind
      have hw := putF_wf _ _ _ _ _ hput hwf
      have hwf2 : WF r2 := by simpa [PutRes.node] using hw.1
      have hk2 : r2.key = [] := by rw [← hk]; simpa [PutRes.node] using hw.2
      have hroot : findF f r2 r2 k = findF f cur r2 k :=
        findF_root_irrel f r2 k r2 cur hwf2 (aligned_root hk2 k)
      refine ih g r2 r1 k v f hwf2 hk2
        (fun p hp2 => hne p (List.mem_cons_of_mem _ hp2))
        ⟨m2, ?_, hval2.trans hval⟩ h
      rw [hroot]
      exact hfind2

/- A node reached by following segments carries the fold of joinKey over
   those segments. -/
theorem reach_key : ∀ (segs : List GoStr) n m, WF n → reachAt n segs = some m →
    m.key = List.foldl joinKey n.key segs := by
  intro segs
  induction segs with
  | nil =>
    intro n m _ h
    rw [reachAt] at h
    injection h with h1
    subst h1
    rfl
  | cons s rest ih =>
    intro n m hwf h
    rw [reachAt] at h
    cases hc : lookupA n.tree s with
    | none => rw [hc] at h; cases h
    | some c =>
      rw [hc] at h
      have hcc := WF_child hwf hc
      rw [List.foldl_cons, ← hcc.1]
      exact ih c m hcc.2 h

/- find on an empty-keyed root with the empty key looks up the child with
   the empty segment name and fails when there is none. -/
theorem find_empty_key_root {r : PNode} (hk : r.key = []) (hnc : lookupA r.tree [] = none)
    (g : Nat) : findF (g+1) r r [] = some none := by
  rw [findF, if_neg (fun h => h.1 hk), if_neg (fun h => h.1 hk)]
  have h1 : keyRem r.key [] = [] := by rw [hk, keyRem, if_pos rfl]
  rw [h1]
  have h2 : splitHead ([] : GoStr) = [] := rfl
  rw [h2, hnc]

/- Characterization of the comment stripping. -/

theorem swh_no_hash : ∀ s : GoStr, (∀ c ∈ s, c ≠ '#') → startsWsHash s = false := by
  intro s
  induction s with
  | nil => intro _; rfl
  | cons c rest ih =>
    intro h
    have hc : (c == '#') = false := by
      simpa using h c (List.mem_cons_self _ _)
    rw [startsWsHash, hc, ih (fun x hx => h x (List.mem_cons_of_mem _ hx))]
    simp

theorem swh_append : ∀ (u v : GoStr), (∀ c ∈ u, c ≠ '#') →
    (startsWsHash (u ++ '#' :: v) = true ↔ ∀ c ∈ u, isRegexSpace c = true) := by
  intro u v
  induction u with
  | nil =>
    intro _
    simp [startsWsHash]
  | cons c rest ih =>
    intro h
    have hc : (c == '#') = false := by
      simpa using h c (List.mem_cons_self _ _)
    rw [List.cons_append, startsWsHash, hc]
    simp only [Bool.false_or, Bool.and_eq_true]
    rw [ih (fun x hx => h x (List.mem_cons_of_mem _ hx))]
    constructor
    · rintro ⟨h1, h2⟩ x hx
      rcases List.mem_cons.mp hx with rfl | hx2
      · exact h1
      · exact h2 x hx2
    · intro hall
      exact ⟨hall c (List.mem_cons_self _ _), fun x hx => hall x (List.mem_cons_of_mem _ hx)⟩

theorem rtrim_nil_of : ∀ u : GoStr, (∀ c ∈ u, isRegexSpace c = true) → rtrimWs u = [] := by
  intro u
  induction u with
  | nil => intro _; rfl
  | cons c rest ih =>
    intro h
    rw [rtrimWs, ih (fun x hx => h x (List.mem_cons_of_mem _ hx))]
    rw [if_pos (h c (List.mem_cons_self _ _))]

theorem all_ws_of_rtrim_nil : ∀ u : GoStr, rtrimWs u = [] → ∀ c ∈ u, isRegexSpace c = true := by
  intro u
  induction u with
  | nil => intro _ c hc; cases hc
  | cons c rest ih =>
    intro h x hx
    rw [rtrimWs] at h
    cases hr : rtrimWs rest with
    | nil =>
      rw [hr] at h
      by_cases hcw : isRegexSpace c = true
      · rcases List.mem_cons.mp hx with rfl | hx2
        · exact hcw
        · exact ih hr x hx2
      · rw [if_neg hcw] at h
        cases h
    | cons a as =>
      rw [hr] at h
      cases h

theorem stripComment_no_hash : ∀ s : GoStr, (∀ c ∈ s, c ≠ '#') → stripComment s = s := by
  intro s
  induction s with
  | nil => intro _; rfl
  | cons c rest ih =>
    intro h
    have hc : (c == '#') = false := by
      simpa using h c (List.mem_cons_self _ _)
    have hs : startsWsHash rest = false :=
      swh_no_hash rest (fun x hx => h x (List.mem_cons_of_mem _ hx))
    rw [stripComment, hc, hs]
    simp [ih (fun x hx => h x (List.mem_cons_of_mem _ hx))]

theorem stripComment_hash : ∀ (u v : GoStr), (∀ c ∈ u, c ≠ '#') →
    stripComment (u ++ '#' :: v) = rtrimWs u := by
  intro u v
  induction u with
  | nil =>
    intro _
    rw [List.nil_append, stripComment]
    simp [rtrimWs]
  | cons c rest ih =>
    intro h
    have hc : c ≠ '#' := h c (List.mem_cons_self _ _)
    have hcb : (c == '#') = false := by simpa using hc
    have hrest : ∀ x ∈ rest, x ≠ '#' := fun x hx => h x (List.mem_cons_of_mem _ hx)
    rw [List.cons_append, stripComment]
    by_cases hws : isRegexSpace c = true ∧ ∀ x ∈ rest, isRegexSpace x = true
    · have hsw : startsWsHash (rest ++ '#' :: v) = true := (swh_append rest v hrest).mpr hws.2
      rw [if_neg (by simp [hcb]), if_pos (by rw [hws.1, hsw]; rfl)]
      rw [rtrimWs, rtrim_nil_of rest hws.2, if_pos hws.1]
    · have hcond : ¬(isRegexSpace c && startsWsHash (rest ++ '#' :: v)) = true := by
        intro hcontra
        rw [Bool.and_eq_true] at hcontra
        exact hws ⟨hcontra.1, (swh_append rest v hrest).mp hcontra.2⟩
      rw [if_neg (by simp [hcb]), if_neg hcond, ih hrest, rtrimWs]
      cases hr : rtrimWs rest with
      | nil =>
        have hall := all_ws_of_rtrim_nil rest hr
        have hcw : ¬ isRegexSpace c = true := fun hw => hws ⟨hw, hall⟩
        rw [if_neg hcw]
      | cons a as => rfl

/-- C1: the claim that parsing always terminates — in particular that
KeyTree.put on the root terminates for every key the assignment grammar
`[\w\.]+` can produce — is refuted by the code: for the single input line
".a = 1" the key ".a" matches the assignment grammar, but put recurses
forever creating empty-keyed children, so parsing (and Load) never
returns at any finite recursion depth. -/
theorem c1_load_never_returns : ∀ fuel, loadLinesF fuel [toGo ".a = 1"] = none := by
  intro fuel
  have hnone : ∀ g, putF g newRoot (toGo ".a") (toGo "1") = none := fun g =>
    put_empty_first _ _ (by decide) g newRoot (emptyChain_of_root rfl rfl)
  have htop := putTop_of_none hnone fuel
  have hline : parseLineF fuel ⟨[], newRoot⟩ (toGo ".a = 1") =
      (match putTop fuel newRoot (toGo ".a") (toGo "1") with
       | none => none
       | some r => some (.ok ⟨[], r⟩)) := rfl
  rw [loadLinesF, parseLinesF, hline, htop]

/-- C5: if some input line (after comment stripping and trimming) is
neither blank nor a section header nor an assignment, and all earlier
lines parse without error, the entire load fails with a ParseError whose
message carries the raw offending line; the remaining lines are never
processed and no Properties tree is returned. -/
theorem c5_parse_error_aborts : ∀ f (good : List GoStr) text rest st1,
    parseLinesF f ⟨[], newRoot⟩ good = some (.ok st1) →
    trimGo (stripComment text) ≠ [] →
    matchSection (trimGo (stripComment text)) = none →
    matchAssignment (trimGo (stripComment text)) = none →
    loadLinesF f (good ++ text :: rest) =
      some (.error (toGo "invalid line: " ++ text)) := by
  intro f good text rest st1 hgood h1 h2 h3
  have hline : parseLineF f st1 text = some (.error (toGo "invalid line: " ++ text)) := by
    rw [parseLineF, if_neg h1]
    simp only [h2, h3]
  rw [loadLinesF, parseLinesF_append, hgood]
  simp only [parseLinesF, hline]

/-- C5 witness: a concrete three-line input whose second line is invalid. -/
theorem c5_witness :
    loadLinesF 10 [toGo "# c", toGo "this is an invalid line", toGo "a = 1"] =
      some (.error (toGo "invalid line: " ++ toGo "this is an invalid line")) :=
  c5_parse_error_aborts 10 [toGo "# c"] (toGo "this is an invalid line") [toGo "a = 1"]
    ⟨[], newRoot⟩ rfl (by decide) rfl rfl

/-- C2 counterexample: for the Properties object loaded from the single
line "a = 1", Subkeys("") does not succeed with the top-level segments: it
fails with NodeNotFound, although "a" is an immediate top-level segment of
the root. -/
theorem c2_cex :
    loadLinesF 10 [toGo "a = 1"] = some (.ok rootA) ∧
    subkeysF 10 rootA (toGo "") = some (.error .nodeNotFound) ∧
    rootA.tree.map Prod.fst = [toGo "a"] :=
  ⟨rfl, rfl, rfl⟩

/-- C2 (amended): Subkeys("") on every loaded Properties object fails with
NodeNotFound (the empty key never resolves, because lookup of "" searches
the root's children for an empty segment name instead of returning the
root); in general Subkeys(key) fails with NodeNotFound exactly when find
fails, and when find succeeds it returns the immediate child segment
names (not full paths) of the resolved node. -/
theorem c2_subkeys_behavior :
    (∀ f lines r g, loadLinesF f lines = some (.ok r) →
      subkeysF (g+1) r (toGo "") = some (.error .nodeNotFound)) ∧
    (∀ f root key n, findF f root root key = some (some n) →
      subkeysF f root key = some (.ok (n.tree.map Prod.fst))) ∧
    (∀ f root key, findF f root root key = some none →
      subkeysF f root key = some (.error .nodeNotFound)) := by
  refine ⟨?_, ?_, ?_⟩
  · intro f lines r g hload
    obtain ⟨hwf, hk, hnc⟩ := load_wf f lines r hload
    have hfind : findF (g+1) r r (toGo "") = some none := find_empty_key_root hk hnc g
    simp only [subkeysF, hfind]
  · intro f root key n h
    simp only [subkeysF, h]
  · intro f root key h
    simp only [subkeysF, h]

/-- C2 witness: the amended statement applied to the loaded object of the
counterexample. -/
theorem c2_witness : subkeysF 10 rootA (toGo "") = some (.error .nodeNotFound) :=
  c2_subkeys_behavior.1 10 [toGo "a = 1"] rootA 9 rfl

/-- C3 counterexample: in the line "v = x\#y" the "#" is preceded by a
backslash, yet comment stripping still removes the "#" and everything
after it: the stored value is "x\", which is not the claimed "x\#y" and
contains no "#" — an escaped "#" does not survive into the value. -/
theorem c3_cex :
    loadLinesF 10 [toGo "v = x\\#y"] = some (.ok rootC3) ∧
    getStringF 10 rootC3 (toGo "v") = some (.ok (toGo "x\\")) ∧
    toGo "x\\" ≠ toGo "x\\#y" ∧ '#' ∉ toGo "x\\" :=
  ⟨rfl, rfl, by decide, by decide⟩

/-- C3 (amended): before classifying a line the parser strips from the
first "#" — whether or not a backslash precedes it; the code has no escape
mechanism — together with the whitespace run immediately before it,
through the end of the line; a line with no "#" is left unchanged.
Comments are therefore recognized anywhere on a line, including after an
assignment, and a backslash never protects a "#". -/
theorem c3_strip_comment :
    (∀ s : GoStr, (∀ c ∈ s, c ≠ '#') → stripComment s = s) ∧
    (∀ u v : GoStr, (∀ c ∈ u, c ≠ '#') →
      stripComment (u ++ '#' :: v) = rtrimWs u) :=
  ⟨stripComment_no_hash, stripComment_hash⟩

/-- C3 witness: the amended statement applied to the backslash line. -/
theorem c3_witness :
    stripComment (toGo "v = x\\" ++ '#' :: toGo "y") = rtrimWs (toGo "v = x\\") :=
  c3_strip_comment.2 (toGo "v = x\\") (toGo "y") (by decide)

/-- C4: if put(k, v) on a well-formed empty-keyed root succeeds, and every
put performed afterwards uses a key different from k (k is never
overwritten), then find(k) on the final tree succeeds and the found
node's value is exactly v. -/
theorem c4_put_persists : ∀ f g root k v r0 (ops : List (GoStr × GoStr)) r1,
    WF root → root.key = [] →
    putTop f root k v = some r0 →
    (∀ p ∈ ops, p.1 ≠ k) →
    foldPuts g r0 ops = some r1 →
    ∃ m, findF f r1 r1 k = some (some m) ∧ m.value = v := by
  intro f g root k v r0 ops r1 hwf hk hput hne hfold
  have hp := putTop_eq hwf (aligned_root hk k) hput
  have hw := putF_wf _ _ _ _ _ hp hwf
  have hwf0 : WF r0 := by simpa [PutRes.node] using hw.1
  have hk0 : r0.key = [] := by rw [← hk]; simpa [PutRes.node] using hw.2
  obtain ⟨m, hfind, hval⟩ := put_then_find f root k v r0 r0 hp
  exact foldPuts_value ops g r0 r1 k v f hwf0 hk0 hne ⟨m, hfind, hval⟩ hfold

/-- C4 witness: put "a.b" = "1", then put "c" = "2"; find "a.b" still
yields the value "1". -/
theorem c4_witness :
    foundValue (findF 10 r1C4 r1C4 (toGo "a.b")) = some (toGo "1") := by
  obtain ⟨m, hm, hv⟩ := c4_put_persists 10 10 newRoot (toGo "a.b") (toGo "1") r0C4
    [(toGo "c", toGo "2")] r1C4 WF_newRoot rfl rfl (by decide) rfl
  rw [hm]
  simp only [foundValue]
  rw [hv]

/-- C6: whenever a key resolves to a node whose stored value is the empty
string — as is the case for every intermediate path node created
implicitly by a deeper assignment or a section header and never directly
assigned a scalar — KeyExists returns true while GetString fails with the
NoValue error carrying that key. -/
theorem c6_intermediate_novalue : ∀ f root key m,
    findF f root root key = some (some m) → m.value = [] →
    keyExistsF f root key = some true ∧
    getStringF f root key = some (.error (.noValue key)) := by
  intro f root key m hfind hval
  constructor
  · simp only [keyExistsF, hfind]
  · simp only [getStringF, hfind]
    rw [if_pos hval]

/-- C6 witness: in the tree loaded from "a.b = 1" the key "a" names only
an implicitly created intermediate node. -/
theorem c6_witness :
    keyExistsF 10 rootAB (toGo "a") = some true ∧
    getStringF 10 rootAB (toGo "a") = some (.error (.noValue (toGo "a"))) :=
  c6_intermediate_novalue 10 rootAB (toGo "a") mAB rfl rfl

/-- C7: put(k, v1) followed by put(k, v2) overwrites in place: the second
put succeeds at the same recursion depth, a subsequent find(k) yields a
node whose value is v2 only, and the list of all node keys of the tree is
unchanged by the second put — no duplicate node for k is created. -/
theorem c7_put_overwrites : ∀ f root k v1 v2 r1,
    WF root → root.key = [] →
    putTop f root k v1 = some r1 →
    ∃ r2 m, putTop f r1 k v2 = some r2 ∧ keysOf r2 = keysOf r1 ∧
      findF f r2 r2 k = some (some m) ∧ m.value = v2 := by
  intro f root k v1 v2 r1 hwf hk hput
  have hp := putTop_eq hwf (aligned_root hk k) hput
  have hw := putF_wf _ _ _ _ _ hp hwf
  have hwf1 : WF r1 := by simpa [PutRes.node] using hw.1
  have hk1 : r1.key = [] := by rw [← hk]; simpa [PutRes.node] using hw.2
  obtain ⟨m1, hfind1, _⟩ := put_then_find f root k v1 r1 r1 hp
  obtain ⟨r2, hput2, hkeys, hfind2, _⟩ :=
    find_then_put f r1 k m1 v2 r1 hwf1 (aligned_root hk1 k) hfind1
  have hw2 := putF_wf _ _ _ _ _ hput2 hwf1
  have hwf2 : WF r2 := by simpa [PutRes.node] using hw2.1
  have hk2 : r2.key = [] := by rw [← hk1]; simpa [PutRes.node] using hw2.2
  refine ⟨r2, .mk k v2 m1.tree, putF_putTop hput2, hkeys, ?_, rfl⟩
  rw [findF_root_irrel f r2 k r2 r1 hwf2 (aligned_root hk2 k)]
  exact hfind2

/-- C7 witness: put "k" = "1" then "k" = "2" on a fresh root. -/
theorem c7_witness :
    putTop 10 r1C7 (toGo "k") (toGo "2") = some r2C7 ∧
    keysOf r2C7 = keysOf r1C7 ∧
    foundValue (findF 10 r2C7 r2C7 (toGo "k")) = some (toGo "2") := by
  obtain ⟨r2, m, h1, h2, h3, h4⟩ :=
    c7_put_overwrites 10 newRoot (toGo "k") (toGo "1") (toGo "2") r1C7 WF_newRoot rfl rfl
  have hc : putTop 10 r1C7 (toGo "k") (toGo "2") = some r2C7 := rfl
  have he : r2 = r2C7 := Option.some.inj (h1.symm.trans hc)
  subst he
  refine ⟨hc, h2, ?_⟩
  rw [h3]
  simp only [foundValue]
  rw [h4]

/-- C8: a put at a key k that already resolves (for instance an existing
intermediate node with children) assigns the value to that existing node
and leaves its children mapping unchanged, and the lookup result of every
strict dotted descendant key is completely unchanged by the put. -/
theorem c8_put_preserves_children : ∀ f root k v m r2,
    WF root → root.key = [] →
    findF f root root k = some (some m) →
    putTop f root k v = some r2 →
    findF f r2 r2 k = some (some (.mk k v m.tree)) ∧
    ∀ f2 k2, (k ++ ['.']).isPrefixOf k2 = true →
      findF f2 r2 r2 k2 = findF f2 root root k2 := by
  intro f root k v m r2 hwf hk hfind hput
  obtain ⟨n', hput', hkeys, hfind', hframe⟩ :=
    find_then_put f root k m v root hwf (aligned_root hk k) hfind
  have hp := putTop_eq hwf (aligned_root hk k) hput
  have he : n' = r2 := by
    rw [hput'] at hp
    exact PutRes.ok.inj (Option.some.inj hp)
  subst he
  have hw2 := putF_wf _ _ _ _ _ hput' hwf
  have hwf2 : WF n' := by simpa [PutRes.node] using hw2.1
  have hk2 : n'.key = [] := by rw [← hk]; simpa [PutRes.node] using hw2.2
  constructor
  · rw [findF_root_irrel f n' k n' root hwf2 (aligned_root hk2 k)]
    exact hfind'
  · intro f2 k2 hpre
    rw [findF_root_irrel f2 n' k2 n' root hwf2 (aligned_root hk2 k2)]
    exact hframe f2 root k2 hpre

/-- C8 witness: overwriting the intermediate key "a" in the tree loaded
from "a.b = 1" keeps its child map and the lookup of "a.b" intact. -/
theorem c8_witness :
    findF 10 r2C8 r2C8 (toGo "a") = some (some (.mk (toGo "a") (toGo "9") mAB.tree)) ∧
    findF 10 r2C8 r2C8 (toGo "a.b") = findF 10 rootAB rootAB (toGo "a.b") := by
  have h := c8_put_preserves_children 10 rootAB (toGo "a") (toGo "9") mAB r2C8
    (load_wf 10 [toGo "a.b = 1"] rootAB rfl).1 rfl rfl rfl
  exact ⟨h.1, h.2 10 (toGo "a.b") (by decide)⟩

/-- C9: every sequence of root-level puts starting from the fresh root
created by Load preserves the structural key invariant: the root's key
stays the empty string, and every node reached by following child
segments from the root has as its key exactly the code's dot-join
(joinKey, which inserts a dot after every nonempty accumulated prefix) of
those segments starting from the empty root key. -/
theorem c9_key_invariant : ∀ f (ops : List (GoStr × GoStr)) r,
    foldPuts f newRoot ops = some r →
    r.key = [] ∧
    ∀ (segs : List GoStr) m, reachAt r segs = some m →
      m.key = List.foldl joinKey [] segs := by
  intro f ops r hfold
  obtain ⟨hwf, hk⟩ := foldPuts_inv ops f newRoot r WF_newRoot rfl hfold
  refine ⟨hk, ?_⟩
  intro segs m hreach
  have h := reach_key segs r m hwf hreach
  rw [hk] at h
  exact h

/-- C9 witness: after put("a.b", "1") the node reached via the segment
"a" has key "a" (the dot-join of the path ["a"]). -/
theorem c9_witness : rC9.key = [] ∧ m9.key = List.foldl joinKey [] [toGo "a"] := by
  have h := c9_key_invariant 10 [(toGo "a.b", toGo "1")] rC9 rfl
  exact ⟨h.1, h.2 [toGo "a"] m9 rfl⟩

/-- C10: GetString never returns the empty string: every successful
GetString result is nonempty, and whenever a key resolves to a node whose
stored value is the empty string — including when an assignment line such
as "key =" explicitly assigned an empty value — GetString fails with
NoValue, so an explicitly assigned empty value is indistinguishable from
no assignment at the public interface. -/
theorem c10_getstring_nonempty :
    (∀ f root key s, getStringF f root key = some (.ok s) → s ≠ []) ∧
    (∀ f root key m, findF f root root key = some (some m) → m.value = [] →
      getStringF f root key = some (.error (.noValue key))) := by
  constructor
  · intro f root key s h
    rw [getStringF] at h
    cases hf : findF f root root key with
    | none => simp only [hf] at h; cases h
    | some o =>
      cases o with
      | none =>
        simp only [hf] at h
        cases h
      | some n =>
        simp only [hf] at h
        by_cases hv : n.value = []
        · rw [if_pos hv] at h
          injection h with h1
          cases h1
        · rw [if_neg hv] at h
          injection h with h1
          injection h1 with h2
          rw [← h2]
          exact hv
  · intro f root key m hfind hval
    simp only [getStringF, hfind]
    rw [if_pos hval]

/-- C10 witness: parsing the line "a =" stores the empty value, and
GetString("a") fails with NoValue — just as for a key never assigned. -/
theorem c10_witness :
    loadLinesF 10 [toGo "a ="] = some (.ok rootEV) ∧
    getStringF 10 rootEV (toGo "a") = some (.error (.noValue (toGo "a"))) :=
  ⟨rfl, c10_getstring_nonempty.2 10 rootEV (toGo "a") mEV rfl rfl⟩
